import Mathlib

/-!
Verification of the sliding-tile puzzle engine.

The data model follows `types.ts`; the board operations follow
`utils/puzzleUtils.ts` (`generateSolvedState`, `shuffleTiles`, `isSolved`,
and the geometry of `sliceImage`) and the move logic of `handleTileClick`
in `App.tsx`.  Boards are lists of tiles whose list index is the grid
position; JavaScript numbers that only ever hold non-negative integers are
Nat, the `-1` sentinel for `previousIdx` is an Int, and the exact halving
in the slice offsets is carried out in ℚ.
-/

/-- The `Tile` interface of `types.ts`. -/
structure Tile where
  id : Nat
  currentPos : Nat
  correctPos : Nat
  imageUrl : String
  isEmpty : Bool
deriving Repr, DecidableEq, Inhabited

/-- Placeholder tile used as the default for out-of-range reads. -/
def dummyTile : Tile :=
  { id := 0, currentPos := 0, correctPos := 0, imageUrl := "", isEmpty := false }

/-- Read the tile at position `p` of a board. -/
def tileAt (b : List Tile) (p : Nat) : Tile :=
  b.getD p dummyTile

/-- `generateSolvedState` of `puzzleUtils.ts` (lines 68-77): tile `index`
gets `id = index`, `currentPos = index`, `correctPos = index`, the
`index`-th image, and is empty exactly for the last cell. -/
def generateSolvedState (imagePieces : List String) (gridSize : Nat) : List Tile :=
  imagePieces.mapIdx (fun index url =>
    { id := index
      currentPos := index
      correctPos := index
      imageUrl := url
      isEmpty := index == gridSize * gridSize - 1 })

/-- `isSolved` of `puzzleUtils.ts` (lines 128-130). -/
def isSolved (tiles : List Tile) : Bool :=
  tiles.all (fun tile => tile.currentPos == tile.correctPos)

/-- The adjacency test of `handleTileClick` in `App.tsx` (lines 77-85):
`row = floor(index / gridSize)`, `col = index % gridSize`, and the move is
accepted when the rows differ by one with equal columns or the columns
differ by one with equal rows. -/
def isAdjacent (gridSize index emptyIndex : Nat) : Bool :=
  let row := index / gridSize
  let col := index % gridSize
  let emptyRow := emptyIndex / gridSize
  let emptyCol := emptyIndex % gridSize
  (((row : Int) - (emptyRow : Int)).natAbs == 1 && col == emptyCol) ||
    (((col : Int) - (emptyCol : Int)).natAbs == 1 && row == emptyRow)

/-- The swap plus `currentPos` writes shared by `handleTileClick`
(`App.tsx` lines 88-94) and the body of the shuffle loop
(`puzzleUtils.ts` lines 103-118): swap the entries at `index` and
`emptyIndex`, then set each swapped tile's `currentPos` to its new
position.  The two field writes commute, so one definition serves both
call sites. -/
def swapAndTrack (tiles : List Tile) (index emptyIndex : Nat) : List Tile :=
  let afterSwap := (tiles.set index (tileAt tiles emptyIndex)).set emptyIndex (tileAt tiles index)
  let withFirst := afterSwap.set index { tileAt afterSwap index with currentPos := index }
  withFirst.set emptyIndex { tileAt withFirst emptyIndex with currentPos := emptyIndex }

/-- The board-state transition of `handleTileClick` in `App.tsx`
(lines 71-103): locate the empty tile, and if the clicked index is
adjacent, swap; otherwise leave the board unchanged. -/
def attemptMove (tiles : List Tile) (gridSize index : Nat) : List Tile :=
  let emptyIndex := tiles.findIdx (·.isEmpty)
  if isAdjacent gridSize index emptyIndex then swapAndTrack tiles index emptyIndex else tiles

/-- The `validMoves` computation of `shuffleTiles` (`puzzleUtils.ts`
lines 87-94): in-bounds up, down, left, right neighbours of the empty
cell, in that order. -/
def validMovesOf (emptyIdx gridSize : Nat) : List Nat :=
  let row := emptyIdx / gridSize
  let col := emptyIdx % gridSize
  (if 0 < row then [emptyIdx - gridSize] else []) ++
    (if row < gridSize - 1 then [emptyIdx + gridSize] else []) ++
    (if 0 < col then [emptyIdx - 1] else []) ++
    (if col < gridSize - 1 then [emptyIdx + 1] else [])

/-- The candidate filtering and random pick of `shuffleTiles`
(`puzzleUtils.ts` lines 96-100).  `Math.floor(Math.random() * len)` is an
arbitrary value of `[0, len)`, modelled as `r % len` for an arbitrary
natural `r` drawn from the random source. -/
def chooseTarget (validMoves : List Nat) (previousIdx : Int) (r : Nat) : Nat :=
  let filteredMoves := validMoves.filter (fun (idx : Nat) => (idx : Int) != previousIdx)
  if 0 < filteredMoves.length then
    filteredMoves.getD (r % filteredMoves.length) 0
  else
    validMoves.getD (r % validMoves.length) 0

/-- One iteration of the shuffle loop (`puzzleUtils.ts` lines 86-122),
acting on the loop state `(tiles, emptyIdx, previousIdx)`. -/
def shuffleStep (gridSize : Nat) (st : List Tile × Nat × Int) (r : Nat) :
    List Tile × Nat × Int :=
  match st with
  | (tiles, emptyIdx, previousIdx) =>
    let targetIdx := chooseTarget (validMovesOf emptyIdx gridSize) previousIdx r
    (swapAndTrack tiles targetIdx emptyIdx, targetIdx, (emptyIdx : Int))

/-- The loop state of `shuffleTiles` after `k` iterations, starting from
`(initialTiles, findIndex isEmpty, -1)`. -/
def shuffleState (initialTiles : List Tile) (gridSize : Nat) (rnd : Nat → Nat)
    (k : Nat) : List Tile × Nat × Int :=
  (List.range k).foldl (fun st i => shuffleStep gridSize st (rnd i))
    (initialTiles, initialTiles.findIdx (·.isEmpty), (-1 : Int))

/-- `shuffleTiles` of `puzzleUtils.ts` (lines 81-126), with the stream of
per-step random draws passed explicitly as `rnd`. -/
def shuffleTiles (initialTiles : List Tile) (gridSize moves : Nat)
    (rnd : Nat → Nat) : List Tile :=
  (shuffleState initialTiles gridSize rnd moves).1

/-- Source rectangle and output size of one tile produced by `sliceImage`
(`puzzleUtils.ts` lines 15-65). -/
structure TileSlice where
  sx : ℚ
  sy : ℚ
  sw : Nat
  sh : Nat
  ow : Nat
  oh : Nat
deriving Repr, DecidableEq, Inhabited

/-- Placeholder slice used as the default for out-of-range reads. -/
def dummySlice : TileSlice :=
  { sx := 0, sy := 0, sw := 0, sh := 0, ow := 0, oh := 0 }

/-- Read the slice at position `p`. -/
def sliceAt (l : List TileSlice) (p : Nat) : TileSlice :=
  l.getD p dummySlice

/-- The geometry of `sliceImage` (`puzzleUtils.ts` lines 15-65):
`size = min(width, height)`, centred offsets `(width - size) / 2` and
`(height - size) / 2` (exact halves, hence ℚ), cell side
`tileSize = floor(size / gridSize)`, output side `min(512, tileSize)`,
tiles produced row by row, each row left to right. -/
def sliceImageGeom (width height gridSize : Nat) : List TileSlice :=
  let size := min width height
  let offsetX : ℚ := ((width : ℚ) - (size : ℚ)) / 2
  let offsetY : ℚ := ((height : ℚ) - (size : ℚ)) / 2
  let tileSize := size / gridSize
  let targetTileSize := min 512 tileSize
  (List.range gridSize).flatMap (fun (row : Nat) =>
    (List.range gridSize).map (fun (col : Nat) =>
      { sx := offsetX + (col : ℚ) * (tileSize : ℚ)
        sy := offsetY + (row : ℚ) * (tileSize : ℚ)
        sw := tileSize
        sh := tileSize
        ow := targetTileSize
        oh := targetTileSize }))

/-- The board has its unique empty tile at position `e`. -/
def uniqueEmptyAt (b : List Tile) (e : Nat) : Prop :=
  e < b.length ∧ (tileAt b e).isEmpty = true ∧
    ∀ p, p < b.length → (tileAt b p).isEmpty = true → p = e

/-- Every tile's `currentPos` field agrees with its list index. -/
def posConsistent (b : List Tile) : Prop :=
  ∀ p, p < b.length → (tileAt b p).currentPos = p

instance (b : List Tile) (e : Nat) : Decidable (uniqueEmptyAt b e) := by
  unfold uniqueEmptyAt
  infer_instance

instance (b : List Tile) : Decidable (posConsistent b) := by
  unfold posConsistent
  infer_instance

/-- Manhattan adjacency as the specification words it: row difference one
with equal columns, or column difference one with equal rows, where
`row = floor(index / gridSize)` and `col = index % gridSize`. -/
def manhattanAdjacent (gridSize a b : Nat) : Prop :=
  ((a / gridSize = b / gridSize + 1 ∨ b / gridSize = a / gridSize + 1) ∧
      a % gridSize = b % gridSize) ∨
    ((a % gridSize = b % gridSize + 1 ∨ b % gridSize = a % gridSize + 1) ∧
      a / gridSize = b / gridSize)

instance (gridSize a b : Nat) : Decidable (manhattanAdjacent gridSize a b) := by
  unfold manhattanAdjacent; infer_instance

/-- Boards produced from a well-formed image list by the factory followed
by any sequence of shuffles and (in-range) move attempts. -/
inductive Produced (n : Nat) : List Tile → Prop
  | factory (imagePieces : List String) (h : imagePieces.length = n * n) :
      Produced n (generateSolvedState imagePieces n)
  | shuffle (b : List Tile) (moves : Nat) (rnd : Nat → Nat) (hb : Produced n b) :
      Produced n (shuffleTiles b n moves rnd)
  | move (b : List Tile) (index : Nat) (hi : index < n * n) (hb : Produced n b) :
      Produced n (attemptMove b n index)

/-- `b` is reachable from `a` in exactly `k` legal single swaps: each step
swaps the unique empty cell with an in-bounds orthogonal neighbour. -/
inductive ReachableIn (n : Nat) : Nat → List Tile → List Tile → Prop
  | refl (b : List Tile) : ReachableIn n 0 b b
  | step (k : Nat) (b c : List Tile) (e target : Nat)
      (hr : ReachableIn n k b c)
      (he : uniqueEmptyAt c e)
      (ht : target ∈ validMovesOf e n) :
      ReachableIn n (k + 1) b (swapAndTrack c target e)

/-- The identity of a tile apart from its mutable position field. -/
def coreOf (t : Tile) : Nat × Nat × String × Bool :=
  (t.id, t.correctPos, t.imageUrl, t.isEmpty)

lemma tileAt_eq_get (b : List Tile) (p : Nat) (hp : p < b.length) :
    tileAt b p = b.get ⟨p, hp⟩ := by
  unfold tileAt
  rw [List.getD_eq_getElem b dummyTile hp]
  exact (List.get_eq_getElem b ⟨p, hp⟩).symm

lemma tileAt_set (b : List Tile) (i p : Nat) (a : Tile) :
    tileAt (b.set i a) p = if i = p ∧ i < b.length then a else tileAt b p := by
  unfold tileAt
  rw [List.getD_eq_getElem?_getD, List.getD_eq_getElem?_getD, List.getElem?_set]
  by_cases hip : i = p
  · subst hip
    by_cases hi : i < b.length
    · simp [hi]
    · simp [hi, List.getElem?_eq_none (Nat.le_of_not_lt hi)]
  · simp [hip]

lemma length_swapAndTrack (b : List Tile) (i j : Nat) :
    (swapAndTrack b i j).length = b.length := by
  simp [swapAndTrack]

lemma tileAt_swapAndTrack (b : List Tile) (i j p : Nat)
    (hi : i < b.length) (hj : j < b.length) :
    tileAt (swapAndTrack b i j) p =
      if p = j then { tileAt b i with currentPos := j }
      else if p = i then { tileAt b j with currentPos := i }
      else tileAt b p := by
  unfold swapAndTrack
  simp only [tileAt_set, List.length_set]
  split_ifs <;> first | rfl | (exfalso; first | omega | tauto)

lemma tileAt_eq_getElem (b : List Tile) (p : Nat) (hp : p < b.length) :
    tileAt b p = b[p] :=
  List.getD_eq_getElem b dummyTile hp

lemma findIdx_of_uniqueEmptyAt (b : List Tile) (e : Nat) (he : uniqueEmptyAt b e) :
    b.findIdx (·.isEmpty) = e := by
  obtain ⟨hlt, hemp, huniq⟩ := he
  rw [List.findIdx_eq hlt]
  constructor
  · rw [← tileAt_eq_getElem b e hlt]
    simpa using hemp
  · intro q hq
    by_contra hcon
    have hq' : q < b.length := Nat.lt_trans hq hlt
    have : q = e := by
      apply huniq q hq'
      rw [tileAt_eq_getElem b q hq']
      simpa using hcon
    omega

lemma uniqueEmptyAt_swapAndTrack (b : List Tile) (i e : Nat)
    (he : uniqueEmptyAt b e) (hi : i < b.length) :
    uniqueEmptyAt (swapAndTrack b i e) i := by
  obtain ⟨hlt, hemp, huniq⟩ := he
  refine ⟨by rw [length_swapAndTrack]; exact hi, ?_, ?_⟩
  · rw [tileAt_swapAndTrack b i e i hi hlt]
    by_cases hie : i = e
    · simpa [hie] using hemp
    · simpa [hie] using hemp
  · intro p hp hpe
    rw [length_swapAndTrack] at hp
    rw [tileAt_swapAndTrack b i e p hi hlt] at hpe
    by_cases hpe' : p = e
    · subst hpe'
      simp only [if_pos rfl] at hpe
      exact (huniq i hi (by simpa using hpe)).symm ▸ rfl
    · by_cases hpi : p = i
      · exact hpi
      · simp only [if_neg hpe', if_neg hpi] at hpe
        exact absurd (huniq p hp hpe) hpe'

lemma posConsistent_swapAndTrack (b : List Tile) (i j : Nat)
    (hpc : posConsistent b) (hi : i < b.length) (hj : j < b.length) :
    posConsistent (swapAndTrack b i j) := by
  intro p hp
  rw [length_swapAndTrack] at hp
  rw [tileAt_swapAndTrack b i j p hi hj]
  by_cases hpj : p = j
  · simp [hpj]
  · by_cases hpi : p = i
    · subst hpi
      rw [if_neg hpj, if_pos rfl]
    · simp [hpj, hpi, hpc p hp]

lemma coreOf_swapAndTrack_newEmpty (b : List Tile) (i e : Nat)
    (hi : i < b.length) (he : e < b.length) :
    coreOf (tileAt (swapAndTrack b i e) i) = coreOf (tileAt b e) := by
  rw [tileAt_swapAndTrack b i e i hi he]
  by_cases hie : i = e
  · simp [hie, coreOf]
  · simp [hie, coreOf]

lemma countP_eq_one_of_unique {α : Type} (P : α → Bool) (l : List α) (e : Nat)
    (he : e < l.length) (hP : P (l.get ⟨e, he⟩) = true)
    (hu : ∀ p (hp : p < l.length), P (l.get ⟨p, hp⟩) = true → p = e) :
    l.countP P = 1 := by
  induction l generalizing e with
  | nil => exact absurd he (Nat.not_lt_zero e)
  | cons a t ih =>
    rw [List.countP_cons]
    cases e with
    | zero =>
      have ha : P a = true := hP
      have ht : t.countP P = 0 := by
        rw [List.countP_eq_zero]
        intro x hx
        obtain ⟨q, hq, hxq⟩ := List.mem_iff_getElem.mp hx
        intro hPx
        have : q + 1 = 0 := by
          apply hu (q + 1) (by simpa using Nat.succ_lt_succ hq)
          simpa [List.get_eq_getElem, hxq] using hPx
        omega
      simp [ha, ht]
    | succ e' =>
      have ha : P a = false := by
        by_contra hcon
        have : (0 : Nat) = e' + 1 := hu 0 (Nat.succ_pos _) (by simpa using hcon)
        omega
      have he' : e' < t.length := by simpa using he
      have : t.countP P = 1 := by
        apply ih e' he' hP
        intro p hp hPp
        have : p + 1 = e' + 1 :=
          hu (p + 1) (by simpa using Nat.succ_lt_succ hp) hPp
        omega
      simp [ha, this]

lemma mem_validMovesOf_iff (x e n : Nat) :
    x ∈ validMovesOf e n ↔
      (0 < e / n ∧ x = e - n) ∨ (e / n < n - 1 ∧ x = e + n) ∨
        (0 < e % n ∧ x = e - 1) ∨ (e % n < n - 1 ∧ x = e + 1) := by
  simp [validMovesOf, List.mem_append, List.mem_ite_nil_right]

lemma validMovesOf_lt {x e n : Nat} (he : e < n * n) (hx : x ∈ validMovesOf e n) :
    x < n * n := by
  have hn : 0 < n := by
    rcases Nat.eq_zero_or_pos n with h | h
    · subst h; simp at he
    · exact h
  have hmod : e % n < n := Nat.mod_lt _ hn
  have hdm : n * (e / n) + e % n = e := Nat.div_add_mod e n
  have hdiv : e / n < n := (Nat.div_lt_iff_lt_mul hn).mpr he
  rcases (mem_validMovesOf_iff x e n).mp hx with ⟨h, rfl⟩ | ⟨h, rfl⟩ | ⟨h, rfl⟩ | ⟨h, rfl⟩
  · omega
  · have h2 : e / n + 2 ≤ n := by omega
    calc e + n = n * (e / n) + e % n + n := by omega
    _ < n * (e / n) + n + n := by omega
    _ = n * (e / n + 2) := by ring
    _ ≤ n * n := Nat.mul_le_mul_left n h2
  · omega
  · have h2 : e / n + 1 ≤ n := by omega
    calc e + 1 < n * (e / n) + n := by omega
    _ = n * (e / n + 1) := by ring
    _ ≤ n * n := Nat.mul_le_mul_left n h2

lemma two_le_length_validMovesOf {e n : Nat} (hn : 2 ≤ n) (he : e < n * n) :
    2 ≤ (validMovesOf e n).length := by
  have hn0 : 0 < n := by omega
  have hdiv : e / n < n := (Nat.div_lt_iff_lt_mul hn0).mpr he
  have hmod : e % n < n := Nat.mod_lt _ hn0
  simp only [validMovesOf, List.length_append]
  split_ifs <;> simp_all <;> omega

lemma exists_two_validMovesOf {e n : Nat} (hn : 2 ≤ n) (he : e < n * n) :
    ∃ a ∈ validMovesOf e n, ∃ c ∈ validMovesOf e n, a ≠ c := by
  have hn0 : 0 < n := by omega
  have hdiv : e / n < n := (Nat.div_lt_iff_lt_mul hn0).mpr he
  have hmod : e % n < n := Nat.mod_lt _ hn0
  have hgee : 0 < e / n → n ≤ e := fun h => (Nat.div_pos_iff (by omega)).mp h
  by_cases h1 : 0 < e / n
  · by_cases h3 : 0 < e % n
    · exact ⟨e - n, (mem_validMovesOf_iff _ _ _).mpr (by tauto),
        e - 1, (mem_validMovesOf_iff _ _ _).mpr (by tauto), by have := hgee h1; omega⟩
    · refine ⟨e - n, (mem_validMovesOf_iff _ _ _).mpr (by tauto),
        e + 1, (mem_validMovesOf_iff _ _ _).mpr ?_, by omega⟩
      have : e % n < n - 1 := by omega
      tauto
  · by_cases h3 : 0 < e % n
    · refine ⟨e + n, (mem_validMovesOf_iff _ _ _).mpr ?_,
        e - 1, (mem_validMovesOf_iff _ _ _).mpr (by tauto), by omega⟩
      have : e / n < n - 1 := by omega
      tauto
    · refine ⟨e + n, (mem_validMovesOf_iff _ _ _).mpr ?_,
        e + 1, (mem_validMovesOf_iff _ _ _).mpr ?_, by omega⟩
      · have : e / n < n - 1 := by omega
        tauto
      · have : e % n < n - 1 := by omega
        tauto

lemma filtered_ne_nil {e n : Nat} (hn : 2 ≤ n) (he : e < n * n) (prev : Int) :
    (validMovesOf e n).filter (fun (idx : Nat) => (idx : Int) != prev) ≠ [] := by
  obtain ⟨a, ha, c, hc, hac⟩ := exists_two_validMovesOf hn he
  by_cases hap : (a : Int) = prev
  · have hcp : (c : Int) ≠ prev := by
      intro h
      exact hac (by exact_mod_cast hap.trans h.symm)
    exact List.ne_nil_of_mem (List.mem_filter.mpr ⟨hc, by simpa using hcp⟩)
  · exact List.ne_nil_of_mem (List.mem_filter.mpr ⟨ha, by simpa using hap⟩)

lemma chooseTarget_mem (vm : List Nat) (prev : Int) (r : Nat) (hvm : vm ≠ []) :
    chooseTarget vm prev r ∈ vm := by
  simp only [chooseTarget]
  split_ifs with hf
  · have hr : r % (vm.filter (fun (idx : Nat) => (idx : Int) != prev)).length <
        (vm.filter (fun (idx : Nat) => (idx : Int) != prev)).length :=
      Nat.mod_lt _ hf
    rw [List.getD_eq_getElem _ _ hr]
    exact List.mem_of_mem_filter (List.getElem_mem hr)
  · have hv : 0 < vm.length := List.length_pos.mpr hvm
    have hr : r % vm.length < vm.length := Nat.mod_lt _ hv
    rw [List.getD_eq_getElem _ _ hr]
    exact List.getElem_mem hr

lemma chooseTarget_lt (vm : List Nat) (prev : Int) (r m : Nat) (hm : 0 < m)
    (hall : ∀ x ∈ vm, x < m) : chooseTarget vm prev r < m := by
  by_cases hvm : vm = []
  · subst hvm
    simp [chooseTarget, List.filter_nil]
    exact hm
  · exact hall _ (chooseTarget_mem vm prev r hvm)

lemma chooseTarget_of_filter_ne_nil (vm : List Nat) (prev : Int) (r : Nat)
    (hf : vm.filter (fun (idx : Nat) => (idx : Int) != prev) ≠ []) :
    chooseTarget vm prev r =
      (vm.filter (fun (idx : Nat) => (idx : Int) != prev)).getD
        (r % (vm.filter (fun (idx : Nat) => (idx : Int) != prev)).length) 0 := by
  simp only [chooseTarget]
  rw [if_pos (List.length_pos.mpr hf)]

lemma shuffleState_zero (b : List Tile) (n : Nat) (rnd : Nat → Nat) :
    shuffleState b n rnd 0 = (b, b.findIdx (·.isEmpty), (-1 : Int)) := rfl

lemma shuffleState_succ (b : List Tile) (n : Nat) (rnd : Nat → Nat) (k : Nat) :
    shuffleState b n rnd (k + 1) = shuffleStep n (shuffleState b n rnd k) (rnd k) := by
  unfold shuffleState
  rw [List.range_succ, List.foldl_append]
  rfl

lemma tileAt_generateSolvedState (l : List String) (n p : Nat) (hp : p < l.length) :
    tileAt (generateSolvedState l n) p =
      { id := p, currentPos := p, correctPos := p,
        imageUrl := l.getD p "", isEmpty := p == n * n - 1 } := by
  have hp' : p < (generateSolvedState l n).length := by
    simpa [generateSolvedState, List.length_mapIdx] using hp
  rw [tileAt_eq_getElem _ _ hp']
  simp [generateSolvedState, List.getElem_mapIdx, List.getD_eq_getElem?_getD,
    List.getElem?_eq_getElem hp]

lemma length_generateSolvedState (l : List String) (n : Nat) :
    (generateSolvedState l n).length = l.length := by
  simp [generateSolvedState, List.length_mapIdx]

lemma shuffleState_invariant (n : Nat) (b : List Tile) (e : Nat) (rnd : Nat → Nat)
    (hb : b.length = n * n) (he : uniqueEmptyAt b e) (k : Nat) :
    (shuffleState b n rnd k).1.length = n * n
    ∧ uniqueEmptyAt (shuffleState b n rnd k).1 (shuffleState b n rnd k).2.1
    ∧ (shuffleState b n rnd k).2.1 < n * n
    ∧ coreOf (tileAt (shuffleState b n rnd k).1 (shuffleState b n rnd k).2.1) =
        coreOf (tileAt b e)
    ∧ (posConsistent b → posConsistent (shuffleState b n rnd k).1)
    ∧ (2 ≤ n → ReachableIn n k b (shuffleState b n rnd k).1) := by
  induction k with
  | zero =>
    rw [shuffleState_zero, findIdx_of_uniqueEmptyAt b e he]
    exact ⟨hb, he, hb ▸ he.1, rfl, fun h => h, fun _ => ReachableIn.refl b⟩
  | succ k ih =>
    obtain ⟨ihlen, ihue, ihlt, ihcore, ihpc, ihreach⟩ := ih
    rw [shuffleState_succ]
    rcases hst : shuffleState b n rnd k with ⟨tiles, emptyIdx, previousIdx⟩
    rw [hst] at ihlen ihue ihlt ihcore ihpc ihreach
    simp only at ihlen ihue ihlt ihcore ihpc ihreach
    simp only [shuffleStep]
    set t := chooseTarget (validMovesOf emptyIdx n) previousIdx (rnd k) with ht
    have htlt : t < n * n := by
      apply chooseTarget_lt _ _ _ _ (by omega)
      intro x hx
      exact validMovesOf_lt ihlt hx
    have htlen : t < tiles.length := by omega
    have hemlen : emptyIdx < tiles.length := by omega
    refine ⟨?_, ?_, ?_, ?_, ?_, ?_⟩
    · rw [length_swapAndTrack]; exact ihlen
    · exact uniqueEmptyAt_swapAndTrack tiles t emptyIdx ihue htlen
    · exact htlt
    · rw [coreOf_swapAndTrack_newEmpty tiles t emptyIdx htlen hemlen]
      exact ihcore
    · intro hpc
      exact posConsistent_swapAndTrack tiles t emptyIdx (ihpc hpc) htlen hemlen
    · intro hn
      have hvm : validMovesOf emptyIdx n ≠ [] := by
        have := two_le_length_validMovesOf hn ihlt
        intro hcon
        rw [hcon] at this
        simp at this
      exact ReachableIn.step k b tiles emptyIdx t (ihreach hn) ihue
        (chooseTarget_mem _ _ _ hvm)

lemma attemptMove_eq (tiles : List Tile) (n i e : Nat) (he : uniqueEmptyAt tiles e) :
    attemptMove tiles n i =
      if isAdjacent n i e then swapAndTrack tiles i e else tiles := by
  unfold attemptMove
  rw [findIdx_of_uniqueEmptyAt tiles e he]

lemma isAdjacent_iff_manhattanAdjacent (n a b : Nat) :
    isAdjacent n a b = true ↔ manhattanAdjacent n a b := by
  unfold isAdjacent manhattanAdjacent
  simp only [Bool.or_eq_true, Bool.and_eq_true, beq_iff_eq]
  constructor
  · rintro (⟨h1, h2⟩ | ⟨h1, h2⟩)
    · left; exact ⟨by omega, h2⟩
    · right; exact ⟨by omega, h2⟩
  · rintro (⟨h1, h2⟩ | ⟨h1, h2⟩)
    · left; exact ⟨by omega, h2⟩
    · right; exact ⟨by omega, h2⟩

lemma manhattanAdjacent_ne {n a b : Nat} (h : manhattanAdjacent n a b) : a ≠ b := by
  unfold manhattanAdjacent at h
  rcases h with ⟨h1, _⟩ | ⟨h1, _⟩ <;> intro hab <;> subst hab <;> omega

lemma manhattanAdjacent_symm {n a b : Nat} (h : manhattanAdjacent n a b) :
    manhattanAdjacent n b a := by
  unfold manhattanAdjacent at *
  rcases h with ⟨h1, h2⟩ | ⟨h1, h2⟩
  · exact Or.inl ⟨h1.symm, h2.symm⟩
  · exact Or.inr ⟨h1.symm, h2.symm⟩

lemma fields_of_coreOf_eq {s t : Tile} (h : coreOf s = coreOf t) :
    s.id = t.id ∧ s.correctPos = t.correctPos ∧ s.imageUrl = t.imageUrl ∧
      s.isEmpty = t.isEmpty := by
  simp only [coreOf, Prod.ext_iff] at h
  tauto

lemma produced_invariant (n : Nat) (b : List Tile) (hn : 1 ≤ n) (hb : Produced n b) :
    b.length = n * n ∧ posConsistent b ∧
      ∃ e, uniqueEmptyAt b e ∧ (tileAt b e).id = n * n - 1 ∧
        (tileAt b e).correctPos = n * n - 1 := by
  induction hb with
  | factory l hl =>
    have hlen : (generateSolvedState l n).length = n * n := by
      rw [length_generateSolvedState, hl]
    have hnn : 1 ≤ n * n := Nat.one_le_iff_ne_zero.mpr (by positivity)
    refine ⟨hlen, ?_, ?_⟩
    · intro p hp
      rw [hlen] at hp
      rw [tileAt_generateSolvedState l n p (by omega)]
    · refine ⟨n * n - 1, ⟨by omega, ?_, ?_⟩, ?_, ?_⟩
      · rw [tileAt_generateSolvedState l n (n * n - 1) (by omega)]
        simp
      · intro p hp hemp
        rw [hlen] at hp
        rw [tileAt_generateSolvedState l n p (by omega)] at hemp
        simpa using hemp
      · rw [tileAt_generateSolvedState l n (n * n - 1) (by omega)]
      · rw [tileAt_generateSolvedState l n (n * n - 1) (by omega)]
  | shuffle c moves rnd hc ihc =>
    obtain ⟨hlen, hpc, e, hue, hid, hcp⟩ := ihc
    have inv := shuffleState_invariant n c e rnd hlen hue moves
    obtain ⟨hflds⟩ := And.intro (fields_of_coreOf_eq inv.2.2.2.1) trivial
    exact ⟨inv.1, inv.2.2.2.2.1 hpc, (shuffleState c n rnd moves).2.1, inv.2.1,
      hflds.1.trans hid, hflds.2.1.trans hcp⟩
  | move c i hi hc ihc =>
    obtain ⟨hlen, hpc, e, hue, hid, hcp⟩ := ihc
    rw [attemptMove_eq c n i e hue]
    split_ifs with hadj
    · have hi' : i < c.length := by omega
      have he' : e < c.length := hue.1
      have hflds := fields_of_coreOf_eq (coreOf_swapAndTrack_newEmpty c i e hi' he')
      exact ⟨by rw [length_swapAndTrack]; exact hlen,
        posConsistent_swapAndTrack c i e hpc hi' he',
        i, uniqueEmptyAt_swapAndTrack c i e hue hi',
        hflds.1.trans hid, hflds.2.1.trans hcp⟩
    · exact ⟨hlen, hpc, e, hue, hid, hcp⟩

lemma map_currentPos_eq_range (b : List Tile) (hpc : posConsistent b) :
    b.map (·.currentPos) = List.range b.length := by
  apply List.ext_get
  · simp
  · intro p h1 h2
    simp only [List.get_eq_getElem, List.getElem_map, List.getElem_range]
    have hp : p < b.length := by simpa using h1
    rw [← tileAt_eq_getElem b p hp]
    exact hpc p hp

lemma isSolved_generateSolvedState (l : List String) (n : Nat) :
    isSolved (generateSolvedState l n) = true := by
  unfold isSolved
  rw [List.all_eq_true]
  intro t ht
  obtain ⟨p, hp, hpt⟩ := List.mem_iff_getElem.mp ht
  have hp' : p < l.length := by
    simpa [length_generateSolvedState] using hp
  rw [← hpt, ← tileAt_eq_getElem _ _ hp, tileAt_generateSolvedState l n p hp']
  simp

lemma getD_flatMap_blocks (g : Nat → List TileSlice) (m : Nat)
    (hg : ∀ r, (g r).length = m) :
    ∀ (L : List Nat) (row col : Nat), row < L.length → col < m →
      (L.flatMap g).getD (row * m + col) dummySlice =
        (g (L.getD row 0)).getD col dummySlice := by
  intro L
  induction L with
  | nil =>
    intro row col hr
    simp at hr
  | cons a t ih =>
    intro row col hr hc
    rw [List.flatMap_cons]
    cases row with
    | zero =>
      simp only [Nat.zero_mul, Nat.zero_add]
      rw [List.getD_append _ _ _ col (by rw [hg a]; exact hc), List.getD_cons_zero]
    | succ row' =>
      have hidx : (row' + 1) * m + col = (g a).length + (row' * m + col) := by
        rw [hg a]; ring
      rw [hidx, List.getD_append_right _ _ _ _ (by omega), Nat.add_sub_cancel_left,
        List.getD_cons_succ]
      exact ih row' col (by simpa using hr) hc

lemma length_flatMap_blocks (g : Nat → List TileSlice) (m : Nat)
    (hg : ∀ r, (g r).length = m) :
    ∀ L : List Nat, (L.flatMap g).length = L.length * m := by
  intro L
  induction L with
  | nil => simp
  | cons a t ih =>
    rw [List.flatMap_cons, List.length_append, hg, ih]
    simp
    ring

lemma length_sliceImageGeom (w h n : Nat) :
    (sliceImageGeom w h n).length = n * n := by
  simp only [sliceImageGeom, List.length_flatMap, Function.comp_def,
    List.length_map, List.length_range]
  simp [List.map_const', List.sum_replicate, smul_eq_mul]

lemma sliceAt_sliceImageGeom (w h n row col : Nat) (hr : row < n) (hc : col < n) :
    sliceAt (sliceImageGeom w h n) (row * n + col) =
      { sx := ((w : ℚ) - ((min w h : Nat) : ℚ)) / 2 + (col : ℚ) * (((min w h / n : Nat)) : ℚ)
        sy := ((h : ℚ) - ((min w h : Nat) : ℚ)) / 2 + (row : ℚ) * (((min w h / n : Nat)) : ℚ)
        sw := min w h / n
        sh := min w h / n
        ow := min 512 (min w h / n)
        oh := min 512 (min w h / n) } := by
  simp only [sliceImageGeom, sliceAt]
  rw [getD_flatMap_blocks _ n (fun r => by simp) (List.range n) row col
    (by simpa using hr) hc]
  have hrow0 : (List.range n).getD row 0 = row := by
    rw [List.getD_eq_getElem _ _ (by simpa using hr)]
    simp
  rw [hrow0]
  simp [List.getD_eq_getElem?_getD, List.getElem?_map, List.getElem?_range, hc]

lemma eq_of_tileAt_eq (b c : List Tile) (hlen : b.length = c.length)
    (h : ∀ p, p < b.length → tileAt b p = tileAt c p) : b = c := by
  apply List.ext_get hlen
  intro p h1 h2
  rw [← tileAt_eq_get b p h1, ← tileAt_eq_get c p h2]
  exact h p h1

lemma tile_double_update (t : Tile) (x y : Nat) (h : t.currentPos = y) :
    { { t with currentPos := x } with currentPos := y } = t := by
  cases t
  cases h
  rfl

/-- Tile images for the concrete 3-by-3 test board. -/
def pieces9 : List String :=
  ["p0", "p1", "p2", "p3", "p4", "p5", "p6", "p7", "p8"]

/-- Tile images for the concrete 2-by-2 test board. -/
def pieces4 : List String := ["q0", "q1", "q2", "q3"]

/-- Claim C1: with a unique empty tile at index `e` and an in-range
`targetIndex`, `attemptMove` (the board logic of `handleTileClick`)
accepts exactly the Manhattan-adjacent targets; an accepted move swaps the
tiles at `targetIndex` and `e` and sets both tiles' `currentPos` to their
new indices, and a rejected move returns the board unchanged. -/
theorem claim1_attemptMove_accepts_iff_adjacent
    (tiles : List Tile) (n target e : Nat)
    (hb : tiles.length = n * n) (he : uniqueEmptyAt tiles e) (ht : target < n * n) :
    (isAdjacent n target (tiles.findIdx (·.isEmpty)) = true ↔ manhattanAdjacent n target e)
    ∧ (manhattanAdjacent n target e →
        (attemptMove tiles n target).length = n * n
        ∧ tileAt (attemptMove tiles n target) target =
            { tileAt tiles e with currentPos := target }
        ∧ tileAt (attemptMove tiles n target) e =
            { tileAt tiles target with currentPos := e }
        ∧ ∀ p, p < n * n → p ≠ target → p ≠ e →
            tileAt (attemptMove tiles n target) p = tileAt tiles p)
    ∧ (¬ manhattanAdjacent n target e → attemptMove tiles n target = tiles) := by
  have hfind := findIdx_of_uniqueEmptyAt tiles e he
  have hmove := attemptMove_eq tiles n target e he
  have hiff := isAdjacent_iff_manhattanAdjacent n target e
  refine ⟨by rw [hfind]; exact hiff, ?_, ?_⟩
  · intro hadj
    have hne : target ≠ e := manhattanAdjacent_ne hadj
    have ht' : target < tiles.length := by omega
    have he' : e < tiles.length := he.1
    rw [hmove, if_pos (hiff.mpr hadj)]
    refine ⟨by rw [length_swapAndTrack]; exact hb, ?_, ?_, ?_⟩
    · rw [tileAt_swapAndTrack tiles target e target ht' he', if_neg hne, if_pos rfl]
    · rw [tileAt_swapAndTrack tiles target e e ht' he', if_pos rfl]
    · intro p hp hpt hpe
      rw [tileAt_swapAndTrack tiles target e p ht' he', if_neg hpe, if_neg hpt]
  · intro hnadj
    rw [hmove, if_neg (fun hcon => hnadj (hiff.mp hcon))]

theorem claim1_witness :
    tileAt (attemptMove (generateSolvedState pieces9 3) 3 5) 5 =
      { tileAt (generateSolvedState pieces9 3) 8 with currentPos := 5 } :=
  ((claim1_attemptMove_accepts_iff_adjacent (generateSolvedState pieces9 3) 3 5 8
      (by decide) (by decide) (by decide)).2.1 (by decide)).2.1

/-- Claim C2: for a board of length `n * n` with a unique empty tile and
`n ≥ 2`, `shuffleTiles` with `k` steps and any random source yields a
board reachable from the input by exactly `k` legal single swaps, and with
zero steps it returns the input board unchanged. -/
theorem claim2_shuffle_reachable
    (n k : Nat) (b : List Tile) (e : Nat) (rnd : Nat → Nat)
    (hn : 2 ≤ n) (hb : b.length = n * n) (he : uniqueEmptyAt b e) :
    ReachableIn n k b (shuffleTiles b n k rnd) ∧ shuffleTiles b n 0 rnd = b := by
  have inv := shuffleState_invariant n b e rnd hb he k
  exact ⟨inv.2.2.2.2.2 hn, rfl⟩

theorem claim2_witness :
    ReachableIn 2 1 (generateSolvedState pieces4 2)
      (shuffleTiles (generateSolvedState pieces4 2) 2 1 (fun i => i)) :=
  (claim2_shuffle_reachable 2 1 (generateSolvedState pieces4 2) 3 (fun i => i)
      (by decide) (by decide) (by decide)).1

/-- Claim C3: every board produced from a well-formed image list by the
factory and any sequence of shuffles and in-range move attempts keeps
`currentPos = p` for the tile at sequence index `p`; hence the list of
`currentPos` values is exactly `0, ..., n * n - 1` in order, so their
multiset is `{0, ..., n * n - 1}` with each value once. -/
theorem claim3_currentPos_matches_index
    (n : Nat) (b : List Tile) (hn : 1 ≤ n) (hb : Produced n b) :
    (∀ p, p < b.length → (tileAt b p).currentPos = p)
    ∧ b.map (·.currentPos) = List.range (n * n) := by
  obtain ⟨hlen, hpc, _⟩ := produced_invariant n b hn hb
  exact ⟨hpc, by rw [← hlen]; exact map_currentPos_eq_range b hpc⟩

theorem claim3_witness :
    (generateSolvedState pieces9 3).map (·.currentPos) = List.range 9 :=
  (claim3_currentPos_matches_index 3 (generateSolvedState pieces9 3) (by decide)
      (Produced.factory pieces9 (by decide))).2

/-- Claim C4: every board produced from a well-formed image list by the
factory and any sequence of shuffles and in-range move attempts has
exactly one tile with `isEmpty = true`, and that tile has
`id = n * n - 1` and `correctPos = n * n - 1`: no operation changes any
tile's `isEmpty` flag or the identity of the empty tile. -/
theorem claim4_single_empty_invariant
    (n : Nat) (b : List Tile) (hn : 1 ≤ n) (hb : Produced n b) :
    b.countP (·.isEmpty) = 1
    ∧ ∃ e, uniqueEmptyAt b e ∧ (tileAt b e).id = n * n - 1
        ∧ (tileAt b e).correctPos = n * n - 1 := by
  obtain ⟨hlen, hpc, e, hue, hid, hcp⟩ := produced_invariant n b hn hb
  refine ⟨?_, e, hue, hid, hcp⟩
  obtain ⟨helt, hemp, huniq⟩ := hue
  apply countP_eq_one_of_unique (·.isEmpty) b e helt
  · rw [← tileAt_eq_get b e helt]
    simpa using hemp
  · intro p hp hPp
    apply huniq p hp
    rw [tileAt_eq_get b p hp]
    simpa using hPp

theorem claim4_witness :
    (generateSolvedState pieces9 3).countP (·.isEmpty) = 1 :=
  (claim4_single_empty_invariant 3 (generateSolvedState pieces9 3) (by decide)
      (Produced.factory pieces9 (by decide))).1

/-- Claim C5: accepted moves are self-inverse: on a well-formed board
(length `n * n`, `currentPos` matching indices, unique empty at `e`) whose
move to `target` is accepted, the resulting board has its empty tile at
`target`, the move back to `e` is also accepted, and performing it
restores the original board. -/
theorem claim5_moves_self_inverse
    (tiles : List Tile) (n target e : Nat)
    (hb : tiles.length = n * n) (hpc : posConsistent tiles)
    (he : uniqueEmptyAt tiles e) (ht : target < n * n)
    (hacc : isAdjacent n target (tiles.findIdx (·.isEmpty)) = true) :
    uniqueEmptyAt (attemptMove tiles n target) target
    ∧ isAdjacent n e ((attemptMove tiles n target).findIdx (·.isEmpty)) = true
    ∧ attemptMove (attemptMove tiles n target) n e = tiles := by
  have hfind := findIdx_of_uniqueEmptyAt tiles e he
  rw [hfind] at hacc
  have hadj : manhattanAdjacent n target e :=
    (isAdjacent_iff_manhattanAdjacent n target e).mp hacc
  have hne : target ≠ e := manhattanAdjacent_ne hadj
  have ht' : target < tiles.length := by omega
  have he' : e < tiles.length := he.1
  have hmv : attemptMove tiles n target = swapAndTrack tiles target e := by
    rw [attemptMove_eq tiles n target e he, if_pos hacc]
  have hue' : uniqueEmptyAt (swapAndTrack tiles target e) target :=
    uniqueEmptyAt_swapAndTrack tiles target e he ht'
  have hfind' : (swapAndTrack tiles target e).findIdx (·.isEmpty) = target :=
    findIdx_of_uniqueEmptyAt _ _ hue'
  have hacc' : isAdjacent n e target = true :=
    (isAdjacent_iff_manhattanAdjacent n e target).mpr (manhattanAdjacent_symm hadj)
  refine ⟨hmv ▸ hue', by rw [hmv, hfind']; exact hacc', ?_⟩
  rw [hmv, attemptMove_eq (swapAndTrack tiles target e) n e target hue', if_pos hacc']
  have hlsw : (swapAndTrack tiles target e).length = tiles.length :=
    length_swapAndTrack tiles target e
  have het : e < (swapAndTrack tiles target e).length := by omega
  have htt : target < (swapAndTrack tiles target e).length := by omega
  apply eq_of_tileAt_eq
  · rw [length_swapAndTrack, hlsw]
  · intro p hp
    rw [length_swapAndTrack, hlsw] at hp
    rw [tileAt_swapAndTrack _ e target p het htt]
    by_cases hpt : p = target
    · rw [hpt, if_pos rfl, tileAt_swapAndTrack tiles target e e ht' he', if_pos rfl]
      exact tile_double_update _ _ _ (hpc target ht')
    · rw [if_neg hpt]
      by_cases hpe : p = e
      · rw [hpe, if_pos rfl, tileAt_swapAndTrack tiles target e target ht' he',
          if_neg hne, if_pos rfl]
        exact tile_double_update _ _ _ (hpc e he')
      · rw [if_neg hpe, tileAt_swapAndTrack tiles target e p ht' he',
          if_neg hpe, if_neg hpt]

theorem claim5_witness :
    attemptMove (attemptMove (generateSolvedState pieces9 3) 3 5) 3 8 =
      generateSolvedState pieces9 3 :=
  (claim5_moves_self_inverse (generateSolvedState pieces9 3) 3 5 8 (by decide)
      (by decide) (by decide) (by decide) (by decide)).2.2

/-- Claim C6: at a shuffle step the candidate set is the in-bounds
neighbour list with the previous empty position removed, falling back to
the unfiltered list only when the filtered list is empty; for every
random draw the chosen target lies in that candidate set, and on the
first step (`previousIdx = -1`) the filter removes nothing. -/
theorem claim6_candidate_set (e n : Nat) (prev : Int) (r : Nat)
    (hvm : validMovesOf e n ≠ []) :
    (∀ x : Nat,
        x ∈ (validMovesOf e n).filter (fun (idx : Nat) => (idx : Int) != prev) ↔
          x ∈ validMovesOf e n ∧ (x : Int) ≠ prev)
    ∧ chooseTarget (validMovesOf e n) prev r ∈
        (if (validMovesOf e n).filter (fun (idx : Nat) => (idx : Int) != prev) = []
         then validMovesOf e n
         else (validMovesOf e n).filter (fun (idx : Nat) => (idx : Int) != prev))
    ∧ (validMovesOf e n).filter (fun (idx : Nat) => (idx : Int) != (-1 : Int)) =
        validMovesOf e n := by
  refine ⟨?_, ?_, ?_⟩
  · intro x
    rw [List.mem_filter]
    simp [bne_iff_ne]
  · split_ifs with hf
    · exact chooseTarget_mem _ _ _ hvm
    · rw [chooseTarget_of_filter_ne_nil _ _ _ hf]
      have hlp : 0 <
          ((validMovesOf e n).filter (fun (idx : Nat) => (idx : Int) != prev)).length :=
        List.length_pos.mpr hf
      have hr' := Nat.mod_lt r hlp
      rw [List.getD_eq_getElem _ _ hr']
      exact List.getElem_mem hr'
  · rw [List.filter_eq_self]
    intro a ha
    simp only [bne_iff_ne, ne_eq]
    omega

theorem claim6_witness :
    chooseTarget (validMovesOf 0 2) 5 0 ∈
      (if (validMovesOf 0 2).filter (fun (idx : Nat) => (idx : Int) != (5 : Int)) = []
       then validMovesOf 0 2
       else (validMovesOf 0 2).filter (fun (idx : Nat) => (idx : Int) != (5 : Int))) :=
  (claim6_candidate_set 0 2 5 0 (by decide)).2.1

/-- Claim C7: for an image list of length `n * n`, `generateSolvedState`
returns the tiles in input order with `id = i`, `correctPos = i`,
`currentPos = i`, the `i`-th image, and `isEmpty` true exactly at
`i = n * n - 1`; consequently `isSolved` of this board is true. -/
theorem claim7_generateSolvedState_spec
    (tileImages : List String) (n : Nat) (h : tileImages.length = n * n) :
    (generateSolvedState tileImages n).length = n * n
    ∧ (∀ i, i < n * n →
        tileAt (generateSolvedState tileImages n) i =
          { id := i, currentPos := i, correctPos := i,
            imageUrl := tileImages.getD i "", isEmpty := i == n * n - 1 })
    ∧ (∀ i, i < n * n →
        ((tileAt (generateSolvedState tileImages n) i).isEmpty = true ↔ i = n * n - 1))
    ∧ isSolved (generateSolvedState tileImages n) = true := by
  refine ⟨by rw [length_generateSolvedState, h], ?_, ?_,
    isSolved_generateSolvedState tileImages n⟩
  · intro i hi
    exact tileAt_generateSolvedState tileImages n i (by omega)
  · intro i hi
    rw [tileAt_generateSolvedState tileImages n i (by omega)]
    simp

theorem claim7_witness :
    isSolved (generateSolvedState pieces9 3) = true :=
  (claim7_generateSolvedState_spec pieces9 3 (by decide)).2.2.2

/-- Claim C8: the slice geometry returns `gridSize * gridSize` tiles in
row-major order from the centred square of side `min(width, height)` at
offsets `((width - size) / 2, (height - size) / 2)`, each cell of source
side `floor(size / gridSize)` and output side `min(512, tileSize)`; a
900-by-600 source at `gridSize = 3` gives the 600-by-600 centre crop and
nine tiles of 200-by-200. -/
theorem claim8_sliceImage_geometry :
    (∀ w h n : Nat, (sliceImageGeom w h n).length = n * n)
    ∧ (∀ w h n row col : Nat, row < n → col < n →
        sliceAt (sliceImageGeom w h n) (row * n + col) =
          { sx := ((w : ℚ) - ((min w h : Nat) : ℚ)) / 2 +
              (col : ℚ) * (((min w h / n : Nat)) : ℚ)
            sy := ((h : ℚ) - ((min w h : Nat) : ℚ)) / 2 +
              (row : ℚ) * (((min w h / n : Nat)) : ℚ)
            sw := min w h / n
            sh := min w h / n
            ow := min 512 (min w h / n)
            oh := min 512 (min w h / n) })
    ∧ sliceImageGeom 900 600 3 =
        [{ sx := 150, sy := 0, sw := 200, sh := 200, ow := 200, oh := 200 },
         { sx := 350, sy := 0, sw := 200, sh := 200, ow := 200, oh := 200 },
         { sx := 550, sy := 0, sw := 200, sh := 200, ow := 200, oh := 200 },
         { sx := 150, sy := 200, sw := 200, sh := 200, ow := 200, oh := 200 },
         { sx := 350, sy := 200, sw := 200, sh := 200, ow := 200, oh := 200 },
         { sx := 550, sy := 200, sw := 200, sh := 200, ow := 200, oh := 200 },
         { sx := 150, sy := 400, sw := 200, sh := 200, ow := 200, oh := 200 },
         { sx := 350, sy := 400, sw := 200, sh := 200, ow := 200, oh := 200 },
         { sx := 550, sy := 400, sw := 200, sh := 200, ow := 200, oh := 200 }] := by
  refine ⟨length_sliceImageGeom, ?_, ?_⟩
  · intro w h n row col hr hc
    exact sliceAt_sliceImageGeom w h n row col hr hc
  · simp only [sliceImageGeom, List.range_succ, List.range_zero]
    norm_num

theorem claim8_witness :
    sliceAt (sliceImageGeom 900 600 3) 5 =
      { sx := ((900 : ℚ) - ((min 900 600 : Nat) : ℚ)) / 2 +
          ((2 : Nat) : ℚ) * (((min 900 600 / 3 : Nat)) : ℚ)
        sy := ((600 : ℚ) - ((min 900 600 : Nat) : ℚ)) / 2 +
          ((1 : Nat) : ℚ) * (((min 900 600 / 3 : Nat)) : ℚ)
        sw := min 900 600 / 3
        sh := min 900 600 / 3
        ow := min 512 (min 900 600 / 3)
        oh := min 512 (min 900 600 / 3) } :=
  claim8_sliceImage_geometry.2.1 900 600 3 1 2 (by decide) (by decide)

/-- Claim C9: `attemptMove` does not bounds-check the target: on a board
of length `n * n` whose unique empty tile sits in the bottom row at `e`,
the out-of-range index `e + n` passes the adjacency test (its computed
row is `n`, one below the empty row, with equal columns), so the move is
accepted and the swap addresses position `e + n`, which lies at or beyond
the board length; `targetIndex < n * n` is an unchecked precondition. -/
theorem claim9_no_bounds_check (tiles : List Tile) (n e : Nat)
    (hn : 1 ≤ n) (hb : tiles.length = n * n) (he : uniqueEmptyAt tiles e)
    (hbot : n * (n - 1) ≤ e) :
    isAdjacent n (e + n) (tiles.findIdx (·.isEmpty)) = true
    ∧ n * n ≤ e + n
    ∧ attemptMove tiles n (e + n) = swapAndTrack tiles (e + n) e := by
  have helt : e < n * n := hb ▸ he.1
  have hfind := findIdx_of_uniqueEmptyAt tiles e he
  have hn0 : 0 < n := hn
  have hdiv : (e + n) / n = e / n + 1 := Nat.add_div_right e hn0
  have hmod : (e + n) % n = e % n := Nat.add_mod_right e n
  have hadj : isAdjacent n (e + n) e = true :=
    (isAdjacent_iff_manhattanAdjacent n (e + n) e).mpr (Or.inl ⟨Or.inl hdiv, hmod⟩)
  refine ⟨by rw [hfind]; exact hadj, ?_, ?_⟩
  · have h1 : n * n = n * (n - 1) + n := by
      have h2 : n - 1 + 1 = n := Nat.succ_pred_eq_of_pos hn0
      calc n * n = n * ((n - 1) + 1) := by rw [h2]
      _ = n * (n - 1) + n := by ring
    omega
  · rw [attemptMove_eq tiles n (e + n) e he, if_pos hadj]

theorem claim9_witness :
    attemptMove (generateSolvedState pieces9 3) 3 11 =
      swapAndTrack (generateSolvedState pieces9 3) 11 8 :=
  (claim9_no_bounds_check (generateSolvedState pieces9 3) 3 8 (by decide) (by decide)
      (by decide) (by decide)).2.2

/-- Claim C10: for `gridSize >= 2` every in-range empty position has at
least two in-bounds orthogonal neighbours, so filtering out the single
previous position never empties the candidate list: the unfiltered
fallback branch of the shuffle step is unreachable and the random pick
always indexes the non-empty filtered list. -/
theorem claim10_fallback_unreachable (n e : Nat) (prev : Int) (r : Nat)
    (hn : 2 ≤ n) (he : e < n * n) :
    2 ≤ (validMovesOf e n).length
    ∧ (validMovesOf e n).filter (fun (idx : Nat) => (idx : Int) != prev) ≠ []
    ∧ chooseTarget (validMovesOf e n) prev r =
        ((validMovesOf e n).filter (fun (idx : Nat) => (idx : Int) != prev)).getD
          (r % ((validMovesOf e n).filter
            (fun (idx : Nat) => (idx : Int) != prev)).length) 0 :=
  ⟨two_le_length_validMovesOf hn he, filtered_ne_nil hn he prev,
    chooseTarget_of_filter_ne_nil _ _ _ (filtered_ne_nil hn he prev)⟩

theorem claim10_witness :
    2 ≤ (validMovesOf 0 2).length :=
  (claim10_fallback_unreachable 2 0 0 0 (by decide) (by decide)).1
